import Mathlib

/-!
Verification of the `note_lib` crate of the chords repository.

The Rust data model is embedded shallowly:

* machine integers (`i32`, the `Semitone` and `Octave` aliases) become `Int`;
* `Hertz` (an `f32` alias defined outside the sources at hand) becomes `ℚ`,
  keeping the numeric literals of the source exact;
* Rust functions that can panic (`panic!`, `unreachable!`, slice/str indexing)
  return `Option`, with `none` marking the panic;
* the `while`/`loop` constructs are embedded as fuel-indexed recursive
  functions whose fuel is generous for every reachable input, so that fuel
  exhaustion (`none`) only models genuine divergence or a panic.
-/

namespace Chords

/-- Frequency in hertz. `Hertz` is a floating-point alias in the crate;
it is modelled by `ℚ` so the literal base frequencies stay exact. -/
abbrev Hertz := ℚ

/-- The crate-wide `Semitone` alias for `i32`. -/
abbrev Semitone := Int

/-- The octave number carried by `Note` (an `i32` in the source). -/
abbrev Octave := Int

/-- The `RawNote` enum: the seven letters plus a note outside the
12-tone system carrying its raw frequency. -/
inductive RawNote where
  | Incongruent (hz : Hertz)
  | C
  | D
  | E
  | F
  | G
  | A
  | B
  deriving DecidableEq

/-- The `NoteModifier` enum, in source declaration order (the derived Rust
`Ord` compares by this order: double flat is least, double sharp greatest). -/
inductive NoteModifier where
  | DoubleFlat
  | Flat
  | Natural
  | Sharp
  | DoubleSharp
  deriving DecidableEq, Fintype

/-- Index of a modifier in its declaration order, used to model the Rust
derived `Ord`/`cmp` on `NoteModifier`. -/
def NoteModifier.ordIndex : NoteModifier → Nat
  | .DoubleFlat => 0
  | .Flat => 1
  | .Natural => 2
  | .Sharp => 3
  | .DoubleSharp => 4

/-- The derived `cmp` on `NoteModifier` (declaration order). -/
def NoteModifier.cmp (a b : NoteModifier) : Ordering :=
  compare a.ordIndex b.ordIndex

/-- The `From<NoteModifier> for Semitone` impl. -/
def NoteModifier.toSemitone : NoteModifier → Int
  | .Sharp => 1
  | .Flat => -1
  | .Natural => 0
  | .DoubleSharp => 2
  | .DoubleFlat => -2

/-- The `ModifierPreference` enum. -/
inductive ModifierPreference where
  | Sharp
  | Flat
  deriving DecidableEq, Fintype

/-- The `From<NoteModifier> for ModifierPreference` impl. -/
def ModifierPreference.ofModifier : NoteModifier → ModifierPreference
  | .Sharp | .DoubleSharp | .Natural => .Sharp
  | .Flat | .DoubleFlat => .Flat

/-- The `IntervalQuality` enum. -/
inductive IntervalQuality where
  | Perfect
  | Major
  | Minor
  | Augmented
  | Diminished
  deriving DecidableEq, Fintype

/-- The `SimpleIntervalNumber` enum, whose Rust discriminants run from
`Unison = 1` up to `Octave = 8`. -/
inductive SimpleIntervalNumber where
  | Unison
  | Second
  | Third
  | Fourth
  | Fifth
  | Sixth
  | Seventh
  | Octave
  deriving DecidableEq, Fintype

/-- The numeric value of a `SimpleIntervalNumber` (its Rust discriminant,
what `as usize` yields in the source). -/
def SimpleIntervalNumber.val : SimpleIntervalNumber → Nat
  | .Unison => 1
  | .Second => 2
  | .Third => 3
  | .Fourth => 4
  | .Fifth => 5
  | .Sixth => 6
  | .Seventh => 7
  | .Octave => 8

/-- The `SimpleInterval` enum, in source declaration order. -/
inductive SimpleInterval where
  | PerfectUnison
  | DiminishedSecond
  | AugmentedUnison
  | MinorSecond
  | MajorSecond
  | DiminishedThird
  | AugmentedSecond
  | MinorThird
  | MajorThird
  | DiminishedFourth
  | AugmentedThird
  | PerfectFourth
  | DiminishedFifth
  | AugmentedFourth
  | PerfectFifth
  | DiminishedSixth
  | AugmentedFifth
  | MinorSixth
  | MajorSixth
  | DiminishedSeventh
  | AugmentedSixth
  | MinorSeventh
  | MajorSeventh
  | DiminishedOctave
  | AugmentedSeventh
  | PerfectOctave
  deriving DecidableEq, Fintype

namespace SimpleInterval

/-- `SimpleInterval::semitones`. -/
def semitones : SimpleInterval → Int
  | .PerfectUnison | .DiminishedSecond => 0
  | .MinorSecond | .AugmentedUnison => 1
  | .MajorSecond | .DiminishedThird => 2
  | .MinorThird | .AugmentedSecond => 3
  | .MajorThird | .DiminishedFourth => 4
  | .PerfectFourth | .AugmentedThird => 5
  | .AugmentedFourth | .DiminishedFifth => 6
  | .PerfectFifth | .DiminishedSixth => 7
  | .MinorSixth | .AugmentedFifth => 8
  | .MajorSixth | .DiminishedSeventh => 9
  | .MinorSeventh | .AugmentedSixth => 10
  | .MajorSeventh | .DiminishedOctave => 11
  | .PerfectOctave | .AugmentedSeventh => 12

/-- `SimpleInterval::interval_number`. -/
def interval_number : SimpleInterval → SimpleIntervalNumber
  | .PerfectUnison | .AugmentedUnison => .Unison
  | .DiminishedSecond | .MinorSecond | .MajorSecond | .AugmentedSecond => .Second
  | .DiminishedThird | .MinorThird | .MajorThird | .AugmentedThird => .Third
  | .DiminishedFourth | .PerfectFourth | .AugmentedFourth => .Fourth
  | .DiminishedFifth | .PerfectFifth | .AugmentedFifth => .Fifth
  | .DiminishedSixth | .MinorSixth | .MajorSixth | .AugmentedSixth => .Sixth
  | .DiminishedSeventh | .MinorSeventh | .MajorSeventh | .AugmentedSeventh => .Seventh
  | .DiminishedOctave | .PerfectOctave => .Octave

/-- `SimpleInterval::quality`. -/
def quality : SimpleInterval → IntervalQuality
  | .PerfectUnison | .PerfectFourth | .PerfectFifth | .PerfectOctave => .Perfect
  | .MinorSecond | .MinorThird | .MinorSixth | .MinorSeventh => .Minor
  | .MajorSecond | .MajorThird | .MajorSixth | .MajorSeventh => .Major
  | .AugmentedUnison | .AugmentedSecond | .AugmentedThird | .AugmentedFourth
  | .AugmentedFifth | .AugmentedSixth | .AugmentedSeventh => .Augmented
  | .DiminishedSecond | .DiminishedThird | .DiminishedFourth | .DiminishedFifth
  | .DiminishedSixth | .DiminishedSeventh | .DiminishedOctave => .Diminished

/-- `SimpleInterval::inverse`. -/
def inverse : SimpleInterval → SimpleInterval
  | .PerfectUnison => .PerfectOctave
  | .MinorSecond => .MajorSeventh
  | .MajorSecond => .MinorSeventh
  | .MinorThird => .MajorSixth
  | .MajorThird => .MinorSixth
  | .PerfectFourth => .PerfectFifth
  | .AugmentedFourth => .DiminishedFifth
  | .DiminishedFifth => .AugmentedFourth
  | .PerfectFifth => .PerfectFourth
  | .MinorSixth => .MajorThird
  | .MajorSixth => .MinorThird
  | .MinorSeventh => .MajorSecond
  | .MajorSeventh => .MinorSecond
  | .PerfectOctave => .PerfectUnison
  | .DiminishedSecond => .AugmentedSeventh
  | .AugmentedUnison => .DiminishedOctave
  | .DiminishedThird => .AugmentedSixth
  | .AugmentedSecond => .DiminishedSeventh
  | .DiminishedFourth => .AugmentedFifth
  | .AugmentedThird => .DiminishedSixth
  | .DiminishedSixth => .AugmentedThird
  | .AugmentedFifth => .DiminishedFourth
  | .DiminishedSeventh => .AugmentedSecond
  | .AugmentedSixth => .DiminishedThird
  | .DiminishedOctave => .AugmentedUnison
  | .AugmentedSeventh => .DiminishedSecond

end SimpleInterval

/-- The `bias_simple_interval_quality` free function: move an interval to an
enharmonically equivalent one of the requested quality when such an interval
exists, otherwise return the input unchanged. -/
def bias_simple_interval_quality (input_interval : SimpleInterval)
    (bias_quality : IntervalQuality) : SimpleInterval :=
  if input_interval.quality = bias_quality then input_interval
  else
    match bias_quality with
    | .Perfect =>
      match input_interval with
      | .DiminishedSecond => .PerfectUnison
      | .AugmentedThird => .PerfectFourth
      | .DiminishedSixth => .PerfectFifth
      | .AugmentedSeventh => .PerfectOctave
      | i => i
    | .Major =>
      match input_interval with
      | .DiminishedThird => .MinorSecond
      | .DiminishedFourth => .MajorThird
      | .DiminishedSeventh => .MajorSixth
      | .DiminishedOctave => .MajorSeventh
      | i => i
    | .Minor =>
      match input_interval with
      | .AugmentedUnison => .MinorSecond
      | .AugmentedSecond => .MinorThird
      | .AugmentedFifth => .MinorSixth
      | .AugmentedSixth => .MinorSeventh
      | i => i
    | .Augmented =>
      match input_interval with
      | .MinorSecond => .AugmentedUnison
      | .MinorThird => .AugmentedSecond
      | .PerfectFourth => .AugmentedThird
      | .MinorSixth => .AugmentedFifth
      | .MinorSeventh => .AugmentedSixth
      | .PerfectOctave => .AugmentedSeventh
      | i => i
    | .Diminished =>
      match input_interval with
      | .PerfectUnison => .DiminishedSecond
      | .MajorSecond => .DiminishedThird
      | .MajorThird => .DiminishedFourth
      | .PerfectFifth => .DiminishedSixth
      | .MajorSixth => .DiminishedSeventh
      | .MajorSeventh => .DiminishedOctave
      | i => i

/-- The `SimpleIntervalFromSemitones` struct: an in-octave interval together
with the number of whole octaves the semitone count overflowed. -/
structure SimpleIntervalFromSemitones where
  octave_overflow : Int
  interval : SimpleInterval
  deriving DecidableEq

/-- The interval selected by the `match remaining_semitones` table inside
`SimpleIntervalFromSemitones::new`; the wildcard arm of the Rust match is a
`panic!`, modelled by `none`. -/
def intervalFromRemainder (r : Int) : Option SimpleInterval :=
  if r = 0 then some .PerfectUnison
  else if r = 1 then some .MinorSecond
  else if r = 2 then some .MajorSecond
  else if r = 3 then some .MinorThird
  else if r = 4 then some .MajorThird
  else if r = 5 then some .PerfectFourth
  else if r = 6 then some .DiminishedFifth
  else if r = 7 then some .PerfectFifth
  else if r = 8 then some .MinorSixth
  else if r = 9 then some .MajorSixth
  else if r = 10 then some .MinorSeventh
  else if r = 11 then some .MajorSeventh
  else if r = 12 then some .PerfectOctave
  else none

namespace SimpleIntervalFromSemitones

/-- `SimpleIntervalFromSemitones::new`: canonical decomposition of a signed
semitone count into an in-octave interval and an octave overflow. Rust `/`
and `%` on `i32` truncate toward zero, hence `Int.tdiv` and `Int.tmod`. -/
def new (semitones : Int) : Option SimpleIntervalFromSemitones :=
  if semitones = 0 then some ⟨0, .PerfectUnison⟩
  else if semitones = 12 then some ⟨0, .PerfectOctave⟩
  else
    let octaves := semitones.tdiv 12
    let remaining := semitones.tmod 12
    let octaves := if remaining < 0 then octaves - 1 else octaves
    let remaining := if remaining < 0 then remaining + 12 else remaining
    (intervalFromRemainder remaining).map fun interval => ⟨octaves, interval⟩

/-- `SimpleIntervalFromSemitones::semitones`. -/
def semitones (x : SimpleIntervalFromSemitones) : Int :=
  x.interval.semitones + x.octave_overflow * 12

/-- `SimpleIntervalFromSemitones::add_semitones`. -/
def add_semitones (x : SimpleIntervalFromSemitones) (s : Int) :
    Option SimpleIntervalFromSemitones :=
  (new (x.interval.semitones + s)).map fun r =>
    { r with octave_overflow := x.octave_overflow + r.octave_overflow }

end SimpleIntervalFromSemitones

namespace SimpleInterval

/-- `SimpleInterval::from_semitones`. -/
def from_semitones (s : Int) : Option SimpleIntervalFromSemitones :=
  SimpleIntervalFromSemitones.new s

/-- `SimpleInterval::add_semitones`. -/
def add_semitones (i : SimpleInterval) (s : Int) :
    Option SimpleIntervalFromSemitones :=
  (SimpleIntervalFromSemitones.new i.semitones).bind
    (SimpleIntervalFromSemitones.add_semitones · s)

/-- The `impl Add<SimpleInterval> for SimpleInterval` operator. -/
def addInterval (a b : SimpleInterval) : Option SimpleInterval :=
  (a.add_semitones b.semitones).map fun r =>
    bias_simple_interval_quality r.interval a.quality

/-- The `impl Add<Semitone> for SimpleInterval` operator. -/
def addSemitoneOp (a : SimpleInterval) (s : Int) : Option SimpleInterval :=
  (a.add_semitones s).map fun r =>
    bias_simple_interval_quality r.interval a.quality

/-- The `impl Sub<SimpleInterval> for SimpleInterval` operator. -/
def subInterval (a b : SimpleInterval) : Option SimpleInterval :=
  (a.add_semitones (-b.semitones)).map fun r =>
    bias_simple_interval_quality r.interval a.quality

/-- The `impl Sub<Semitone> for SimpleInterval` operator. -/
def subSemitoneOp (a : SimpleInterval) (s : Int) : Option SimpleInterval :=
  (a.add_semitones (-s)).map fun r =>
    bias_simple_interval_quality r.interval a.quality

end SimpleInterval

namespace RawNote

/-- `RawNote::next_note`: the next letter upward and the semitone distance to
it; panics (`none`) on an incongruent note. -/
def next_note : RawNote → Option (RawNote × Int)
  | .C => some (.D, 2)
  | .D => some (.E, 2)
  | .E => some (.F, 1)
  | .F => some (.G, 2)
  | .G => some (.A, 2)
  | .A => some (.B, 2)
  | .B => some (.C, 1)
  | .Incongruent _ => none

/-- `RawNote::prev_note`: the previous letter downward and the semitone
distance to it; panics (`none`) on an incongruent note. -/
def prev_note : RawNote → Option (RawNote × Int)
  | .C => some (.B, 1)
  | .D => some (.C, 2)
  | .E => some (.D, 2)
  | .F => some (.E, 1)
  | .G => some (.F, 2)
  | .A => some (.G, 2)
  | .B => some (.A, 2)
  | .Incongruent _ => none

/-- `RawNote::raw_note_to_hz`: the fixed base frequency of each letter
(octave 0), or the carried frequency of an incongruent note. -/
def raw_note_to_hz : RawNote → Hertz
  | .Incongruent hz => hz
  | .C => 16.35
  | .D => 18.35
  | .E => 20.60
  | .F => 21.83
  | .G => 24.50
  | .A => 27.50
  | .B => 30.87

/-- `RawNote::to_hertz`. -/
def to_hertz (r : RawNote) : Hertz := raw_note_to_hz r

end RawNote

/-- The `AbstractNote` struct: a letter with a modifier but no octave. -/
structure AbstractNote where
  raw_note : RawNote
  modifier : NoteModifier
  deriving DecidableEq

/-- The `while current_note != RawNote::C` loop shared by
`Note::to_semitones_from_c0` and `AbstractNote::interval_from_c`: walk the
letter down to C via `prev_note`, summing the semitone distances. The fuel
bound 8 exceeds the longest letter chain (B needs six steps); `none` models
the `unreachable!` hit on an incongruent note. -/
def semitonesFromCLoop : Nat → RawNote → Option Int
  | _, .C => some 0
  | 0, _ => none
  | fuel + 1, r =>
    (r.prev_note).bind fun pd =>
      (semitonesFromCLoop fuel pd.1).map (· + pd.2)

/-- The `while current_semitones > 0` loop of
`AbstractNote::from_interval_from_c`: climb up from C via `next_note`,
spending the remaining semitones, and place a sharp or flat per the
preference when one semitone is left before a whole-step letter. -/
def fromIntervalLoop :
    Nat → Int → RawNote → NoteModifier → ModifierPreference →
    Option AbstractNote
  | 0, cur, note, modifier, _ =>
    if 0 < cur then none else some ⟨note, modifier⟩
  | fuel + 1, cur, note, modifier, pref =>
    if 0 < cur then
      (note.next_note).bind fun nd =>
        if nd.2 ≤ cur then
          fromIntervalLoop fuel (cur - nd.2) nd.1 modifier pref
        else if cur = 1 then
          if pref = ModifierPreference.Sharp then
            fromIntervalLoop fuel (cur - 1) note NoteModifier.Sharp pref
          else
            fromIntervalLoop fuel (cur - 1) nd.1 NoteModifier.Flat pref
        else
          fromIntervalLoop fuel cur note modifier pref
    else some ⟨note, modifier⟩

namespace AbstractNote

/-- `AbstractNote::interval_from_c`: semitone distance of the letter from C,
adjusted by the modifier, decomposed through `from_semitones`, keeping only
the interval. -/
def interval_from_c (a : AbstractNote) : Option SimpleInterval :=
  (semitonesFromCLoop 8 a.raw_note).bind fun semitones_from_c =>
    (SimpleIntervalFromSemitones.new (semitones_from_c + a.modifier.toSemitone)).map
      (·.interval)

/-- `AbstractNote::from_interval_from_c`: spell the note reached by walking
the interval's semitones up from C. Fuel 16 exceeds the at most twelve loop
iterations possible for an in-octave interval. -/
def from_interval_from_c (interval : SimpleInterval)
    (modifier_preference : ModifierPreference) : Option AbstractNote :=
  fromIntervalLoop 16 interval.semitones RawNote.C NoteModifier.Natural
    modifier_preference

end AbstractNote

/-- The descending arm of `bias_abstract_note_to_enharmonic_equivalent`
(current modifier below the bias in the derived order): walk letters downward
accumulating semitones until the bias modifier spells the same pitch, giving
up (returning the input) once the search overshoots. -/
def biasDownLoop :
    Nat → RawNote → Int → AbstractNote → NoteModifier →
    Option AbstractNote
  | 0, _, _, _, _ => none
  | fuel + 1, current, acc, note, bias =>
    (current.prev_note).bind fun pd =>
      let t := pd.2 + note.modifier.toSemitone - bias.toSemitone + acc
      if t = 0 then some ⟨pd.1, bias⟩
      else if 0 ≤ t then some note
      else biasDownLoop fuel pd.1 (acc + pd.2) note bias

/-- The ascending arm of `bias_abstract_note_to_enharmonic_equivalent`
(current modifier above the bias): walk letters upward symmetrically. -/
def biasUpLoop :
    Nat → RawNote → Int → AbstractNote → NoteModifier →
    Option AbstractNote
  | 0, _, _, _, _ => none
  | fuel + 1, current, acc, note, bias =>
    (current.next_note).bind fun nd =>
      let t := nd.2 - note.modifier.toSemitone + bias.toSemitone - acc
      if t = 0 then some ⟨nd.1, bias⟩
      else if t ≤ 0 then some note
      else biasUpLoop fuel nd.1 (acc + nd.2) note bias

/-- The `bias_abstract_note_to_enharmonic_equivalent` free function: respell
a note with the bias modifier when an enharmonically equivalent spelling
exists, otherwise return the note unchanged. Fuel 12 exceeds the at most
four steps either search can take before terminating. -/
def bias_abstract_note_to_enharmonic_equivalent (note : AbstractNote)
    (bias : NoteModifier) : Option AbstractNote :=
  match NoteModifier.cmp note.modifier bias with
  | .eq => some note
  | .lt => biasDownLoop 12 note.raw_note 0 note bias
  | .gt => biasUpLoop 12 note.raw_note 0 note bias

namespace AbstractNote

/-- `AbstractNote::add_semitones`: identity at zero, otherwise re-derive the
interval from C, shift it, respell with the note's modifier preference, and
bias back toward the original modifier. -/
def add_semitones (a : AbstractNote) (s : Int) : Option AbstractNote :=
  if s = 0 then some a
  else
    (a.interval_from_c).bind fun i =>
      (i.add_semitones s).bind fun r =>
        (from_interval_from_c r.interval
            (ModifierPreference.ofModifier a.modifier)).bind fun b =>
          bias_abstract_note_to_enharmonic_equivalent b a.modifier

/-- `AbstractNote::add_interval`, also the
`impl Add<SimpleInterval> for AbstractNote` operator. -/
def add_interval (a : AbstractNote) (interval : SimpleInterval) :
    Option AbstractNote :=
  a.add_semitones interval.semitones

end AbstractNote

/-- The `Note` struct: an abstract note placed at an octave. -/
structure Note where
  abstract_note : AbstractNote
  octave : Int
  deriving DecidableEq

/-- `AbstractNote::at_octave`. -/
def AbstractNote.at_octave (a : AbstractNote) (octave : Int) : Note :=
  ⟨a, octave⟩

namespace Note

/-- `Note::new`. -/
def new (raw_note : RawNote) (octave : Int) (modifier : NoteModifier) :
    Note :=
  ⟨⟨raw_note, modifier⟩, octave⟩

/-- `Note::to_hertz`: the letter's base frequency scaled by two to the
octave (`2.0f32.powi`, exact over `ℚ`). -/
def to_hertz (n : Note) : Hertz :=
  n.abstract_note.raw_note.to_hertz * (2 : ℚ) ^ n.octave

/-- The `while current_octave < self.octave` counting loop of
`Note::to_semitones_from_c0`: starting from zero it stops at `octave` when
that is positive and contributes nothing otherwise. -/
def climbOctaveFromZero (octave : Int) : Int := max octave 0

/-- `Note::to_semitones_from_c0`: twelve semitones per (non-negative) octave
plus the letter's distance from C plus the modifier adjustment. -/
def to_semitones_from_c0 (n : Note) : Option Int :=
  (semitonesFromCLoop 8 n.abstract_note.raw_note).map fun semitones_from_c =>
    climbOctaveFromZero n.octave * 12 + semitones_from_c
      + n.abstract_note.modifier.toSemitone

/-- `Note::from_semitones_from_c0`: decompose the semitone count; a perfect
octave interval is converted to a perfect unison one octave higher before
spelling. -/
def from_semitones_from_c0 (semitones_from_low_c : Int)
    (modifier_preference : ModifierPreference) : Option Note :=
  (SimpleInterval.from_semitones semitones_from_low_c).bind fun r =>
    match r.interval with
    | .PerfectOctave =>
      (AbstractNote.from_interval_from_c .PerfectUnison
          modifier_preference).map
        (·.at_octave (r.octave_overflow + 1))
    | i =>
      (AbstractNote.from_interval_from_c i modifier_preference).map
        (·.at_octave r.octave_overflow)

/-- `Note::add_semitones`: panics (`none`) when the result would fall below
C0, otherwise reconstructs the note from the shifted semitone count using
the note's modifier preference. -/
def add_semitones (n : Note) (s : Int) : Option Note :=
  (n.to_semitones_from_c0).bind fun v =>
    if v + s < 0 then none
    else from_semitones_from_c0 (v + s)
      (ModifierPreference.ofModifier n.abstract_note.modifier)

end Note

/-- The `Chord` struct: a list of notes. -/
structure Chord where
  notes : List Note
  deriving DecidableEq

namespace Chord

/-- `Chord::new`. -/
def new (notes : List Note) : Chord := ⟨notes⟩

/-- One iteration of the positive branch of `Chord::apply_inversion`:
`notes.remove(0)` (a panic — `none` — on an empty vector), raise the removed
note an octave, push it at the end. -/
def inversionStepUp : List Note → Option (List Note)
  | [] => none
  | n :: rest =>
    some (rest ++ [Note.new n.abstract_note.raw_note (n.octave + 1)
      n.abstract_note.modifier])

/-- One iteration of the negative branch of `Chord::apply_inversion`:
`notes.remove(notes.len() - 1)` (a panic — `none` — on an empty vector),
lower the removed note an octave, insert it at the front. -/
def inversionStepDown (notes : List Note) : Option (List Note) :=
  match notes.getLast? with
  | none => none
  | some n =>
    some (Note.new n.abstract_note.raw_note (n.octave - 1)
      n.abstract_note.modifier :: notes.dropLast)

/-- The `while inversion > 0` loop of `Chord::apply_inversion`. -/
def inversionUpSteps : Nat → List Note → Option (List Note)
  | 0, notes => some notes
  | k + 1, notes => (inversionStepUp notes).bind (inversionUpSteps k)

/-- The `while inversion < 0` loop of `Chord::apply_inversion`. -/
def inversionDownSteps : Nat → List Note → Option (List Note)
  | 0, notes => some notes
  | k + 1, notes => (inversionStepDown notes).bind (inversionDownSteps k)

/-- `Chord::apply_inversion` (the `i8` argument widened to `Int`): positive
counts rotate the lowest note to the top an octave higher, negative counts do
the reverse, zero is the identity. -/
def apply_inversion (c : Chord) (inversion : Int) : Option Chord :=
  if inversion = 0 then some c
  else if inversion < 0 then
    (inversionDownSteps (-inversion).toNat c.notes).map Chord.new
  else
    (inversionUpSteps inversion.toNat c.notes).map Chord.new

end Chord

/-- The `ChordQuality` enum. -/
inductive ChordQuality where
  | Major
  | Major6th
  | Major7th
  | Major9th
  | Major11th
  | Major13th
  | Minor
  | Minor6th
  | Minor7th
  | MinorMajor7th
  | Minor9th
  | Minor11th
  | Minor13th
  | MinorMajor7thFlat13th
  | Augmented
  | Augmented7th
  | AugmentedMajor7th
  | Diminished
  | Diminished7th
  | Suspended2nd
  | Suspended4th
  deriving DecidableEq

namespace ChordQuality

/-- Helper sequencing the `root.add_semitones(k)` calls of
`ChordQuality::to_notes` for a list of offsets, prepending the root; any
panic inside `add_semitones` propagates as `none`. -/
def rootPlus (root : Note) (offsets : List Int) : Option (List Note) :=
  (offsets.mapM (root.add_semitones)).map (root :: ·)

/-- `ChordQuality::to_notes`: the root followed by the quality's fixed
semitone offsets above it, each spelled by `Note::add_semitones`. -/
def to_notes (q : ChordQuality) (root : Note) : Option (List Note) :=
  match q with
  | .Major => rootPlus root [4, 7]
  | .Major6th => rootPlus root [4, 7, 9]
  | .Major7th => rootPlus root [4, 7, 11]
  | .Major9th => rootPlus root [4, 7, 11, 14]
  | .Major11th => rootPlus root [4, 7, 11, 14, 17]
  | .Major13th => rootPlus root [4, 7, 11, 14, 17, 21]
  | .Minor => rootPlus root [3, 7]
  | .Minor6th => rootPlus root [3, 7, 9]
  | .Minor7th => rootPlus root [3, 7, 10]
  | .MinorMajor7th => rootPlus root [3, 7, 11]
  | .Minor9th => rootPlus root [3, 7, 10, 14]
  | .Minor11th => rootPlus root [3, 7, 10, 14, 17]
  | .Minor13th => rootPlus root [3, 7, 10, 14, 17, 21]
  | .MinorMajor7thFlat13th => rootPlus root [3, 7, 11, 20]
  | .Augmented => rootPlus root [4, 8]
  | .Augmented7th => rootPlus root [4, 8, 10]
  | .AugmentedMajor7th => rootPlus root [4, 8, 11]
  | .Diminished => rootPlus root [3, 6]
  | .Diminished7th => rootPlus root [3, 6, 9]
  | .Suspended2nd => rootPlus root [2, 7]
  | .Suspended4th => rootPlus root [5, 7]

end ChordQuality

/-- The `AbstractNoteParseError` enum. -/
inductive AbstractNoteParseError where
  | EmptyInput
  | InvalidNote
  | InvalidModifier
  | InputTooLong
  deriving DecidableEq

/-- The length in bytes of a string's UTF-8 encoding (`str::len`). -/
def utf8Length (s : List Char) : Nat := (s.map Char.utf8Size).sum

/-- The `str::trim` call: strip leading and trailing whitespace. -/
def rustTrim (s : List Char) : List Char :=
  ((s.dropWhile Char.isWhitespace).reverse.dropWhile Char.isWhitespace).reverse

/-- The `trimmed.split_at(1)` call: split one byte in. It panics (`none`)
when the string is empty (byte index out of bounds) or its first character
occupies more than one byte (not a char boundary). -/
def splitAtByteOne (s : List Char) : Option (Char × List Char) :=
  match s with
  | [] => none
  | c :: rest => if c.utf8Size = 1 then some (c, rest) else none

/-- The `char::to_ascii_uppercase` conversion. -/
def asciiUppercase (c : Char) : Char :=
  if 'a' ≤ c ∧ c ≤ 'z' then Char.ofNat (c.toNat - 32) else c

/-- The `impl TryFrom<String> for AbstractNote` parser. `none` models a
panic escaping the function; `some (Except.error e)` the typed parse
errors; `some (Except.ok a)` a successful parse. -/
def AbstractNote.try_from_string (value : List Char) :
    Option (Except AbstractNoteParseError AbstractNote) :=
  if value = [] then some (Except.error .EmptyInput)
  else
    let trimmed := rustTrim value
    if 3 < utf8Length trimmed then some (Except.error .InputTooLong)
    else
      (splitAtByteOne trimmed).map fun fr =>
        let raw_note : Except AbstractNoteParseError RawNote :=
          if asciiUppercase fr.1 = 'A' then .ok .A
          else if asciiUppercase fr.1 = 'B' then .ok .B
          else if asciiUppercase fr.1 = 'C' then .ok .C
          else if asciiUppercase fr.1 = 'D' then .ok .D
          else if asciiUppercase fr.1 = 'E' then .ok .E
          else if asciiUppercase fr.1 = 'F' then .ok .F
          else if asciiUppercase fr.1 = 'G' then .ok .G
          else .error .InvalidNote
        match raw_note with
        | .error e => .error e
        | .ok rn =>
          if fr.2 = [] then .ok ⟨rn, .Natural⟩
          else if fr.2 = ['#'] then .ok ⟨rn, .Sharp⟩
          else if fr.2 = ['b'] then .ok ⟨rn, .Flat⟩
          else if fr.2 = ['#', '#'] ∨ fr.2 = ['x'] then .ok ⟨rn, .DoubleSharp⟩
          else if fr.2 = ['b', 'b'] then .ok ⟨rn, .DoubleFlat⟩
          else .error .InvalidModifier

/-- The quality inversion table stated by the specification (and by the
comment inside `SimpleInterval::inverse`): Perfect stays Perfect, Major and
Minor swap, Augmented and Diminished swap. -/
def invertedQuality : IntervalQuality → IntervalQuality
  | .Perfect => .Perfect
  | .Major => .Minor
  | .Minor => .Major
  | .Augmented => .Diminished
  | .Diminished => .Augmented

/-- The interval produced by re-decomposing an interval's own semitone count
(proof-side helper; `canonical_interval_spec` shows `new` indeed returns it
with no octave overflow). -/
def canonicalIntervalOf (a : SimpleInterval) : SimpleInterval :=
  (((SimpleIntervalFromSemitones.new a.semitones).map (·.interval)).getD
    .PerfectUnison)

/-- The spelling produced by `AbstractNote::from_interval_from_c`
(proof-side helper; `from_interval_from_c_some` shows the fueled loop indeed
returns it). -/
def spelledNoteOf (i : SimpleInterval) (pref : ModifierPreference) :
    AbstractNote :=
  (AbstractNote.from_interval_from_c i pref).getD ⟨.C, .Natural⟩

/-- The semitone distance from C spelled by an abstract note: its letter's
distance plus the modifier adjustment. -/
def pitchOf (a : AbstractNote) : Option Int :=
  (semitonesFromCLoop 8 a.raw_note).map (· + a.modifier.toSemitone)

/-- The seven letter variants of `RawNote`. -/
def letterRawNotes : List RawNote := [.C, .D, .E, .F, .G, .A, .B]

/-- Decidable statement of the pitch-class law of `AbstractNote` interval
addition: adding `i` to `a` and reading the result's interval from C yields
a semitone count congruent modulo 12 to `a`'s interval from C plus `i`'s
semitones, with every intermediate step succeeding. -/
def addIntervalPreservesPitchClass (a : AbstractNote) (i : SimpleInterval) :
    Bool :=
  match (a.add_interval i).bind AbstractNote.interval_from_c,
      a.interval_from_c with
  | some j, some base =>
    (j.semitones - (base.semitones + i.semitones)) % 12 == 0
  | _, _ => false

/-! ## Helper lemmas -/

/-- Truncating remainder by 12 is strictly above `-12`. -/
theorem tmod_twelve_lower (s : Int) : -12 < s.tmod 12 := by
  rcases le_or_lt 0 s with h | h
  · have := Int.tmod_nonneg (a := s) 12 h
    omega
  · have h1 : (-s).tmod 12 = (-s) - 12 * ((-s).tdiv 12) := Int.tmod_def (-s) 12
    have h2 : s.tmod 12 = s - 12 * (s.tdiv 12) := Int.tmod_def s 12
    rw [Int.neg_tdiv] at h1
    have := Int.tmod_lt_of_pos (-s) (b := 12) (by norm_num)
    omega

/-- Each remainder between 0 and 12 is in the interval table, with matching
semitone count. -/
theorem intervalFromRemainder_spec (r : Int) (h1 : 0 ≤ r) (h2 : r ≤ 12) :
    ∃ i, intervalFromRemainder r = some i ∧ i.semitones = r := by
  interval_cases r <;> exact ⟨_, rfl, rfl⟩

/-- Full characterisation of `SimpleIntervalFromSemitones::new`: it always
succeeds, the decomposition recombines to the input, the in-octave part lies
in `[0, 12]` (in `[0, 11]` away from the two special cases), the special
cases return their fixed pairs, and a non-negative input yields a
non-negative octave overflow. -/
theorem new_spec (s : Int) :
    ∃ r, SimpleIntervalFromSemitones.new s = some r ∧
      r.octave_overflow * 12 + r.interval.semitones = s ∧
      0 ≤ r.interval.semitones ∧ r.interval.semitones ≤ 12 ∧
      (s = 0 → r = ⟨0, .PerfectUnison⟩) ∧
      (s = 12 → r = ⟨0, .PerfectOctave⟩) ∧
      (s ≠ 0 → s ≠ 12 → r.interval.semitones ≤ 11) ∧
      (0 ≤ s → 0 ≤ r.octave_overflow) := by
  by_cases h0 : s = 0
  · subst h0
    exact ⟨⟨0, .PerfectUnison⟩, rfl, by decide, by decide, by decide,
      fun _ => rfl, fun h => absurd h (by decide),
      fun h _ => absurd rfl h, fun _ => le_refl 0⟩
  by_cases h12 : s = 12
  · subst h12
    exact ⟨⟨0, .PerfectOctave⟩, rfl, by decide, by decide, by decide,
      fun h => absurd h (by decide), fun _ => rfl,
      fun _ h => absurd rfl h, fun _ => le_refl 0⟩
  · have hub : s.tmod 12 < 12 := Int.tmod_lt_of_pos s (by norm_num)
    have hlb : -12 < s.tmod 12 := tmod_twelve_lower s
    have hid : s.tmod 12 + 12 * (s.tdiv 12) = s := Int.tmod_add_tdiv s 12
    by_cases hneg : s.tmod 12 < 0
    · obtain ⟨i, hi, hisem⟩ := intervalFromRemainder_spec (s.tmod 12 + 12)
        (by omega) (by omega)
      refine ⟨⟨s.tdiv 12 - 1, i⟩, ?_, ?_, ?_, ?_,
        fun h => absurd h h0, fun h => absurd h h12,
        fun _ _ => ?_, fun hs => ?_⟩
      · unfold SimpleIntervalFromSemitones.new
        rw [if_neg h0, if_neg h12]
        simp only [if_pos hneg, hi, Option.map_some']
      · show (s.tdiv 12 - 1) * 12 + i.semitones = s
        rw [hisem]; omega
      · show (0 : Int) ≤ i.semitones
        rw [hisem]; omega
      · show (i.semitones : Int) ≤ 12
        rw [hisem]
        exact (by omega : s.tmod 12 + 12 ≤ 12)
      · show (i.semitones : Int) ≤ 11
        rw [hisem]
        exact (by omega : s.tmod 12 + 12 ≤ 11)
      · show 0 ≤ s.tdiv 12 - 1
        have := Int.tmod_nonneg (a := s) 12 hs
        omega
    · obtain ⟨i, hi, hisem⟩ := intervalFromRemainder_spec (s.tmod 12)
        (by omega) (by omega)
      refine ⟨⟨s.tdiv 12, i⟩, ?_, ?_, ?_, ?_,
        fun h => absurd h h0, fun h => absurd h h12,
        fun _ _ => ?_, fun hs => Int.tdiv_nonneg hs (by norm_num)⟩
      · unfold SimpleIntervalFromSemitones.new
        rw [if_neg h0, if_neg h12]
        simp only [if_neg hneg, hi, Option.map_some']
      · show s.tdiv 12 * 12 + i.semitones = s
        rw [hisem]; omega
      · show (0 : Int) ≤ i.semitones
        rw [hisem]; omega
      · show (i.semitones : Int) ≤ 12
        rw [hisem]
        exact (by omega : s.tmod 12 ≤ 12)
      · show (i.semitones : Int) ≤ 11
        rw [hisem]
        exact (by omega : s.tmod 12 ≤ 11)

/-- Re-decomposing an interval's own semitone count succeeds with no octave
overflow and preserves the semitone count. -/
theorem canonical_interval_spec :
    ∀ a : SimpleInterval,
      SimpleIntervalFromSemitones.new a.semitones =
        some ⟨0, canonicalIntervalOf a⟩ ∧
      (canonicalIntervalOf a).semitones = a.semitones := by
  decide

/-- The fueled spelling loop of `AbstractNote::from_interval_from_c` always
succeeds on an in-octave interval. -/
theorem from_interval_from_c_some :
    ∀ (i : SimpleInterval) (pref : ModifierPreference),
      AbstractNote.from_interval_from_c i pref = some (spelledNoteOf i pref) := by
  decide

/-- Away from the perfect octave, the spelling produced by
`from_interval_from_c` sits at the interval's own semitone distance from C.
(A twelve-semitone interval spells as the letter C again, an octave off.) -/
theorem spelled_pitch :
    ∀ (i : SimpleInterval) (pref : ModifierPreference),
      i.semitones ≤ 11 → pitchOf (spelledNoteOf i pref) = some i.semitones := by
  decide

/-- `SimpleInterval::add_semitones` is the canonical decomposition of the
interval's semitone count plus the shift. -/
theorem interval_add_semitones_eq (a : SimpleInterval) (s : Int) :
    a.add_semitones s = SimpleIntervalFromSemitones.new (a.semitones + s) := by
  obtain ⟨hnew, hsem⟩ := canonical_interval_spec a
  unfold SimpleInterval.add_semitones
  rw [hnew, Option.some_bind]
  unfold SimpleIntervalFromSemitones.add_semitones
  rw [show (⟨0, canonicalIntervalOf a⟩ :
      SimpleIntervalFromSemitones).interval.semitones = a.semitones from hsem]
  cases h : SimpleIntervalFromSemitones.new (a.semitones + s) with
  | none => rfl
  | some r =>
    cases r with
    | mk oo i => simp

/-! ## The claims -/

/-- C1: for every signed integer `s`, `SimpleIntervalFromSemitones::new(s)`
returns a pair whose recombination `octave_overflow * 12 + semitones` is
`s`, with the in-octave part in `[0, 12]`; inputs `0` and `12` yield exactly
`(PerfectUnison, 0)` and `(PerfectOctave, 0)`, and a negative input gets its
remainder forced into `[0, 12)` (floor semantics). -/
theorem new_decomposes_semitones (s : Int) :
    ∃ r, SimpleIntervalFromSemitones.new s = some r ∧
      r.octave_overflow * 12 + r.interval.semitones = s ∧
      0 ≤ r.interval.semitones ∧ r.interval.semitones ≤ 12 ∧
      (s = 0 → r = ⟨0, .PerfectUnison⟩) ∧
      (s = 12 → r = ⟨0, .PerfectOctave⟩) ∧
      (s < 0 → r.interval.semitones < 12 ∧ r.octave_overflow < 0) := by
  obtain ⟨r, h1, h2, h3, h4, h5, h6, h7, h8⟩ := new_spec s
  refine ⟨r, h1, h2, h3, h4, h5, h6, fun hneg => ?_⟩
  have hs0 : s ≠ 0 := by omega
  have hs12 : s ≠ 12 := by omega
  have h11 := h7 hs0 hs12
  constructor
  · omega
  · -- the octave count must be negative to recombine to a negative input
    by_contra hge
    push_neg at hge
    have : (0 : Int) ≤ r.octave_overflow * 12 :=
      mul_nonneg hge (by norm_num)
    omega

/-- Witness for C1 at the concrete negative input `-2`. -/
theorem new_decomposes_semitones_witness :
    ∃ r, SimpleIntervalFromSemitones.new (-2) = some r ∧
      r.octave_overflow * 12 + r.interval.semitones = -2 ∧
      0 ≤ r.interval.semitones ∧ r.interval.semitones ≤ 12 ∧
      ((-2 : Int) = 0 → r = ⟨0, .PerfectUnison⟩) ∧
      ((-2 : Int) = 12 → r = ⟨0, .PerfectOctave⟩) ∧
      ((-2 : Int) < 0 → r.interval.semitones < 12 ∧ r.octave_overflow < 0) :=
  new_decomposes_semitones (-2)

/-- C4: `inverse` is an involution, interval numbers of an interval and its
inverse sum to 9, and the quality flips per the fixed table (Perfect stays,
Major and Minor swap, Augmented and Diminished swap). -/
theorem inverse_involution_number_quality :
    ∀ x : SimpleInterval,
      x.inverse.inverse = x ∧
      x.interval_number.val + x.inverse.interval_number.val = 9 ∧
      x.inverse.quality = invertedQuality x.quality := by
  decide

/-- C3: the four arithmetic operators on `SimpleInterval` all convert to
semitone counts, add (or subtract), decompose canonically, and re-bias the
resulting interval to the left operand's quality; in particular a major
third plus a minor second is a perfect fourth, not an augmented third. -/
theorem interval_operators_bias_left_quality :
    (∀ a b : SimpleInterval, a.addInterval b =
      (SimpleIntervalFromSemitones.new (a.semitones + b.semitones)).map
        (fun r => bias_simple_interval_quality r.interval a.quality)) ∧
    SimpleInterval.addInterval .MajorThird .MinorSecond =
      some .PerfectFourth ∧
    SimpleInterval.addInterval .MajorThird .MinorSecond ≠
      some .AugmentedThird ∧
    (∀ a b : SimpleInterval, a.subInterval b =
      (SimpleIntervalFromSemitones.new (a.semitones - b.semitones)).map
        (fun r => bias_simple_interval_quality r.interval a.quality)) ∧
    (∀ (a : SimpleInterval) (s : Int), a.addSemitoneOp s =
      (SimpleIntervalFromSemitones.new (a.semitones + s)).map
        (fun r => bias_simple_interval_quality r.interval a.quality)) ∧
    (∀ (a : SimpleInterval) (s : Int), a.subSemitoneOp s =
      (SimpleIntervalFromSemitones.new (a.semitones - s)).map
        (fun r => bias_simple_interval_quality r.interval a.quality)) := by
  refine ⟨fun a b => ?_, by decide, by decide, fun a b => ?_,
    fun a s => ?_, fun a s => ?_⟩
  · unfold SimpleInterval.addInterval
    rw [interval_add_semitones_eq]
  · unfold SimpleInterval.subInterval
    rw [interval_add_semitones_eq, ← sub_eq_add_neg]
  · unfold SimpleInterval.addSemitoneOp
    rw [interval_add_semitones_eq]
  · unfold SimpleInterval.subSemitoneOp
    rw [interval_add_semitones_eq, ← sub_eq_add_neg]

/-- Witness for C3 extracting its concrete conjunct. -/
theorem interval_operators_bias_left_quality_witness :
    SimpleInterval.addInterval .MajorThird .MinorSecond =
      some .PerfectFourth :=
  interval_operators_bias_left_quality.2.1

/-- C10 (implicit): `Note::to_hertz` never reads the modifier — any two
modifiers on the same letter and octave give the same frequency, namely the
letter's base frequency times two to the octave; in particular C4 and C#4
report the same frequency. -/
theorem to_hertz_ignores_modifier :
    (∀ (r : RawNote) (o : Int) (m1 m2 : NoteModifier),
      (Note.new r o m1).to_hertz = (Note.new r o m2).to_hertz ∧
      (Note.new r o m1).to_hertz = r.to_hertz * (2 : ℚ) ^ o) ∧
    (Note.new .C 4 .Natural).to_hertz = (Note.new .C 4 .Sharp).to_hertz :=
  ⟨fun _ _ _ _ => ⟨rfl, rfl⟩, rfl⟩

deriving instance DecidableEq for Except

/-- C7 evaluated on the code: a whitespace-only input reaches
`trimmed.split_at(1)` with an empty trimmed string and panics (`none`)
instead of returning a typed parse error, while the other documented cases
do return their typed results. -/
theorem try_from_whitespace_panics :
    AbstractNote.try_from_string [' '] = none ∧
    AbstractNote.try_from_string [] = some (Except.error .EmptyInput) ∧
    AbstractNote.try_from_string ['C'] = some (Except.ok ⟨.C, .Natural⟩) ∧
    AbstractNote.try_from_string ['C', '#'] = some (Except.ok ⟨.C, .Sharp⟩) ∧
    AbstractNote.try_from_string ['B', 'b', 'b'] =
      some (Except.ok ⟨.B, .DoubleFlat⟩) ∧
    AbstractNote.try_from_string ['F', 'x'] =
      some (Except.ok ⟨.F, .DoubleSharp⟩) ∧
    AbstractNote.try_from_string ['H'] = some (Except.error .InvalidNote) ∧
    AbstractNote.try_from_string ['C', '%'] =
      some (Except.error .InvalidModifier) ∧
    AbstractNote.try_from_string ['C', '#', '#', '#'] =
      some (Except.error .InputTooLong) := by
  decide

/-- C5 counterexample: `Minor7th.to_notes(C4)` does not produce the
flat-spelled `[C4, Eb4, G4, Bb4]` the specification lists. -/
theorem minor7th_to_notes_not_flat_spelled :
    ChordQuality.to_notes .Minor7th (Note.new .C 4 .Natural) ≠
      some [Note.new .C 4 .Natural, Note.new .E 4 .Flat,
        Note.new .G 4 .Natural, Note.new .B 4 .Flat] := by
  decide

/-- C5 as amended: the semitone offsets are `[0, 4, 7]` for Major and
`[0, 3, 7, 10]` for Minor7th, and `Major.to_notes(C4) = [C4, E4, G4]`, but a
natural root maps to the sharp preference, so
`Minor7th.to_notes(C4) = [C4, D#4, G4, A#4]` (enharmonic to the flat
spellings the specification lists). -/
theorem to_notes_offsets_sharp_spelling :
    ChordQuality.to_notes .Major (Note.new .C 4 .Natural) =
      some [Note.new .C 4 .Natural, Note.new .E 4 .Natural,
        Note.new .G 4 .Natural] ∧
    ChordQuality.to_notes .Minor7th (Note.new .C 4 .Natural) =
      some [Note.new .C 4 .Natural, Note.new .D 4 .Sharp,
        Note.new .G 4 .Natural, Note.new .A 4 .Sharp] ∧
    (ChordQuality.to_notes .Major (Note.new .C 4 .Natural)).bind
        (List.mapM Note.to_semitones_from_c0) =
      some [48, 48 + 4, 48 + 7] ∧
    (ChordQuality.to_notes .Minor7th (Note.new .C 4 .Natural)).bind
        (List.mapM Note.to_semitones_from_c0) =
      some [48, 48 + 3, 48 + 7, 48 + 10] := by
  decide

/-- One upward inversion step followed by one downward step restores a
non-empty note list. -/
theorem inversionStepUp_down (ns : List Note) (h : ns ≠ []) :
    (Chord.inversionStepUp ns).bind Chord.inversionStepDown = some ns := by
  cases ns with
  | nil => exact absurd rfl h
  | cons n rest =>
    simp only [Chord.inversionStepUp, Option.some_bind,
      Chord.inversionStepDown, List.getLast?_concat, List.dropLast_concat]
    cases n with
    | mk an oct =>
      cases an with
      | mk rn md => simp [Note.new]

/-- One downward inversion step followed by one upward step restores a
non-empty note list. -/
theorem inversionStepDown_up (ns : List Note) (h : ns ≠ []) :
    (Chord.inversionStepDown ns).bind Chord.inversionStepUp = some ns := by
  rcases List.eq_nil_or_concat ns with h0 | ⟨l, a, rfl⟩
  · exact absurd h0 h
  · simp only [List.concat_eq_append, Chord.inversionStepDown,
      List.getLast?_concat, List.dropLast_concat, Option.some_bind,
      Chord.inversionStepUp]
    cases a with
    | mk an oct =>
      cases an with
      | mk rn md => simp [Note.new]

/-- Iterated upward inversion steps succeed on a non-empty list and keep it
non-empty. -/
theorem inversionUpSteps_some :
    ∀ (k : Nat) (ns : List Note), ns ≠ [] →
      ∃ ms, Chord.inversionUpSteps k ns = some ms ∧ ms ≠ [] := by
  intro k
  induction k with
  | zero => exact fun ns h => ⟨ns, rfl, h⟩
  | succ k ih =>
    intro ns h
    cases ns with
    | nil => exact absurd rfl h
    | cons n rest =>
      obtain ⟨ms, hm, hm0⟩ := ih (rest ++ [Note.new n.abstract_note.raw_note
        (n.octave + 1) n.abstract_note.modifier]) (by simp)
      exact ⟨ms, by
        simpa [Chord.inversionUpSteps, Chord.inversionStepUp,
          Option.some_bind] using hm, hm0⟩

/-- Iterated downward inversion steps succeed on a non-empty list and keep
it non-empty. -/
theorem inversionDownSteps_some :
    ∀ (k : Nat) (ns : List Note), ns ≠ [] →
      ∃ ms, Chord.inversionDownSteps k ns = some ms ∧ ms ≠ [] := by
  intro k
  induction k with
  | zero => exact fun ns h => ⟨ns, rfl, h⟩
  | succ k ih =>
    intro ns h
    rcases List.eq_nil_or_concat ns with h0 | ⟨l, a, rfl⟩
    · exact absurd h0 h
    · obtain ⟨ms, hm, hm0⟩ := ih (Note.new a.abstract_note.raw_note
        (a.octave - 1) a.abstract_note.modifier :: l) (by simp)
      refine ⟨ms, ?_, hm0⟩
      simpa [Chord.inversionDownSteps, Chord.inversionStepDown,
        List.concat_eq_append, List.getLast?_concat, List.dropLast_concat,
        Option.some_bind] using hm

/-- The upward loop can peel its last step instead of its first. -/
theorem inversionUpSteps_succ_alt (k : Nat) (ns : List Note) :
    Chord.inversionUpSteps (k + 1) ns =
      (Chord.inversionUpSteps k ns).bind Chord.inversionStepUp := by
  induction k generalizing ns with
  | zero => cases h : Chord.inversionStepUp ns <;>
      simp [Chord.inversionUpSteps, h]
  | succ k ih =>
    cases h : Chord.inversionStepUp ns with
    | none => simp [Chord.inversionUpSteps, h]
    | some m =>
      simp only [Chord.inversionUpSteps, h, Option.some_bind]
      show Chord.inversionUpSteps (k + 1) m =
        (Chord.inversionUpSteps k m).bind Chord.inversionStepUp
      exact ih m

/-- The downward loop can peel its last step instead of its first. -/
theorem inversionDownSteps_succ_alt (k : Nat) (ns : List Note) :
    Chord.inversionDownSteps (k + 1) ns =
      (Chord.inversionDownSteps k ns).bind Chord.inversionStepDown := by
  induction k generalizing ns with
  | zero => cases h : Chord.inversionStepDown ns <;>
      simp [Chord.inversionDownSteps, h]
  | succ k ih =>
    cases h : Chord.inversionStepDown ns with
    | none => simp [Chord.inversionDownSteps, h]
    | some m =>
      simp only [Chord.inversionDownSteps, h, Option.some_bind]
      show Chord.inversionDownSteps (k + 1) m =
        (Chord.inversionDownSteps k m).bind Chord.inversionStepDown
      exact ih m

/-- Any number of upward inversion steps is undone by as many downward
steps. -/
theorem inversionUpDown_cancel :
    ∀ (k : Nat) (ns : List Note), ns ≠ [] →
      (Chord.inversionUpSteps k ns).bind (Chord.inversionDownSteps k) =
        some ns := by
  intro k
  induction k with
  | zero => intro ns _; rfl
  | succ k ih =>
    intro ns h
    rw [inversionUpSteps_succ_alt]
    obtain ⟨m, hm, hm0⟩ := inversionUpSteps_some k ns h
    have hd : Chord.inversionDownSteps k m = some ns := by
      have hik := ih ns h
      rwa [hm, Option.some_bind] at hik
    rw [hm, Option.some_bind]
    cases hsu : Chord.inversionStepUp m with
    | none =>
      cases m with
      | nil => exact absurd rfl hm0
      | cons x r => exact absurd hsu (by simp [Chord.inversionStepUp])
    | some m2 =>
      rw [Option.some_bind]
      have hsd : Chord.inversionStepDown m2 = some m := by
        have hc := inversionStepUp_down m hm0
        rwa [hsu, Option.some_bind] at hc
      show (Chord.inversionStepDown m2).bind (Chord.inversionDownSteps k) =
        some ns
      rw [hsd, Option.some_bind, hd]

/-- Any number of downward inversion steps is undone by as many upward
steps. -/
theorem inversionDownUp_cancel :
    ∀ (k : Nat) (ns : List Note), ns ≠ [] →
      (Chord.inversionDownSteps k ns).bind (Chord.inversionUpSteps k) =
        some ns := by
  intro k
  induction k with
  | zero => intro ns _; rfl
  | succ k ih =>
    intro ns h
    rw [inversionDownSteps_succ_alt]
    obtain ⟨m, hm, hm0⟩ := inversionDownSteps_some k ns h
    have hu : Chord.inversionUpSteps k m = some ns := by
      have hik := ih ns h
      rwa [hm, Option.some_bind] at hik
    rw [hm, Option.some_bind]
    cases hsd : Chord.inversionStepDown m with
    | none =>
      rcases List.eq_nil_or_concat m with h0 | ⟨l, a, rfl⟩
      · exact absurd h0 hm0
      · exact absurd hsd (by simp [Chord.inversionStepDown,
          List.concat_eq_append, List.getLast?_concat])
    | some m2 =>
      rw [Option.some_bind]
      have hsu : Chord.inversionStepUp m2 = some m := by
        have hc := inversionStepDown_up m hm0
        rwa [hsd, Option.some_bind] at hc
      show (Chord.inversionStepUp m2).bind (Chord.inversionUpSteps k) =
        some ns
      rw [hsu, Option.some_bind, hu]

/-- C9: `apply_inversion` rotates the bottom note up an octave (or, for
negative counts, the top note down an octave) once per unit; on `[C4,E4,G4]`
the inversions 1, 2, 0 and -1 give the listed chords; and on any non-empty
chord an inversion is undone by the opposite inversion. -/
theorem apply_inversion_spec (c : Chord) (n : Int) (hne : c.notes ≠ [])
    (hn : n.natAbs ≤ c.notes.length) :
    (Chord.new [Note.new .C 4 .Natural, Note.new .E 4 .Natural,
        Note.new .G 4 .Natural]).apply_inversion 1 =
      some (Chord.new [Note.new .E 4 .Natural, Note.new .G 4 .Natural,
        Note.new .C 5 .Natural]) ∧
    (Chord.new [Note.new .C 4 .Natural, Note.new .E 4 .Natural,
        Note.new .G 4 .Natural]).apply_inversion 2 =
      some (Chord.new [Note.new .G 4 .Natural, Note.new .C 5 .Natural,
        Note.new .E 5 .Natural]) ∧
    (Chord.new [Note.new .C 4 .Natural, Note.new .E 4 .Natural,
        Note.new .G 4 .Natural]).apply_inversion 0 =
      some (Chord.new [Note.new .C 4 .Natural, Note.new .E 4 .Natural,
        Note.new .G 4 .Natural]) ∧
    (Chord.new [Note.new .C 4 .Natural, Note.new .E 4 .Natural,
        Note.new .G 4 .Natural]).apply_inversion (-1) =
      some (Chord.new [Note.new .G 3 .Natural, Note.new .C 4 .Natural,
        Note.new .E 4 .Natural]) ∧
    (c.apply_inversion n).bind (·.apply_inversion (-n)) = some c := by
  refine ⟨by decide, by decide, by decide, by decide, ?_⟩
  by_cases h0 : n = 0
  · subst h0
    simp [Chord.apply_inversion]
  · by_cases hneg : n < 0
    · rw [Chord.apply_inversion, if_neg h0, if_pos hneg]
      obtain ⟨ms, hm, _⟩ := inversionDownSteps_some (-n).toNat c.notes hne
      have hcancel := inversionDownUp_cancel (-n).toNat c.notes hne
      rw [hm, Option.some_bind] at hcancel
      rw [hm, Option.map_some', Option.some_bind, Chord.apply_inversion,
        if_neg (by omega : ¬ -n = 0), if_neg (by omega : ¬ -n < 0)]
      rw [show (Chord.new ms).notes = ms from rfl, hcancel]
      cases c
      rfl
    · have hpos : 0 < n := by omega
      rw [Chord.apply_inversion, if_neg h0, if_neg (by omega : ¬ n < 0)]
      obtain ⟨ms, hm, _⟩ := inversionUpSteps_some n.toNat c.notes hne
      have hcancel := inversionUpDown_cancel n.toNat c.notes hne
      rw [hm, Option.some_bind] at hcancel
      rw [hm, Option.map_some', Option.some_bind, Chord.apply_inversion,
        if_neg (by omega : ¬ -n = 0), if_pos (by omega : -n < 0),
        neg_neg]
      rw [show (Chord.new ms).notes = ms from rfl, hcancel]
      cases c
      rfl

/-- Witness for C9 at the concrete one-note chord and inversion count 1. -/
theorem apply_inversion_spec_witness :
    ((Chord.new [Note.new .C 4 .Natural]).apply_inversion 1).bind
      (·.apply_inversion (-1)) = some (Chord.new [Note.new .C 4 .Natural]) :=
  (apply_inversion_spec (Chord.new [Note.new .C 4 .Natural]) 1
    (by decide) (by decide)).2.2.2.2

/-- Away from a perfect-octave decomposition, `from_semitones_from_c0` is the
plain spelling of the decomposed interval placed at the overflow octave. -/
theorem from_semitones_general (s : Int) (pref : ModifierPreference)
    (r : SimpleIntervalFromSemitones)
    (hr : SimpleIntervalFromSemitones.new s = some r)
    (hne : r.interval ≠ .PerfectOctave) :
    Note.from_semitones_from_c0 s pref =
      (AbstractNote.from_interval_from_c r.interval pref).map
        (·.at_octave r.octave_overflow) := by
  unfold Note.from_semitones_from_c0 SimpleInterval.from_semitones
  rw [hr, Option.some_bind]
  cases hI : r.interval <;> first | exact absurd hI hne | rfl

/-- `Note::from_semitones_from_c0` never panics: it returns a note for every
input. -/
theorem note_from_semitones_some (s : Int) (pref : ModifierPreference) :
    (Note.from_semitones_from_c0 s pref).isSome := by
  obtain ⟨r, hr, -⟩ := new_spec s
  unfold Note.from_semitones_from_c0 SimpleInterval.from_semitones
  rw [hr, Option.some_bind]
  cases hI : r.interval <;> simp [from_interval_from_c_some]

/-- C6: `Note::add_semitones` panics (`none`) exactly when the shifted
semitone count falls below C0, and otherwise reconstructs the note from the
shifted count; in particular `C0 - 1` semitone panics. -/
theorem add_semitones_range_guard (n : Note) (s v : Int)
    (h : n.to_semitones_from_c0 = some v) :
    (v + s < 0 → n.add_semitones s = none) ∧
    (0 ≤ v + s →
      n.add_semitones s = Note.from_semitones_from_c0 (v + s)
        (ModifierPreference.ofModifier n.abstract_note.modifier) ∧
      ∃ m, n.add_semitones s = some m) ∧
    (Note.new .C 0 .Natural).add_semitones (-1) = none := by
  have hb : n.add_semitones s = if v + s < 0 then none else
      Note.from_semitones_from_c0 (v + s)
        (ModifierPreference.ofModifier n.abstract_note.modifier) := by
    unfold Note.add_semitones
    rw [h, Option.some_bind]
  refine ⟨fun hlt => ?_, fun hge => ?_, by decide⟩
  · rw [hb, if_pos hlt]
  · rw [hb, if_neg (by omega)]
    exact ⟨rfl, Option.isSome_iff_exists.mp (note_from_semitones_some (v + s) _)⟩

/-- Witness for C6: `Note::new(C, 0, Natural).add_semitones(-1)` panics. -/
theorem add_semitones_range_guard_witness :
    (Note.new .C 0 .Natural).add_semitones (-1) = none :=
  (add_semitones_range_guard (Note.new .C 0 .Natural) (-1) 0 (by decide)).1
    (by decide)

/-- C2 counterexample: reconstructing from the negative semitone count `-1`
and measuring again yields `11`, not `-1` — the negative-octave note that
`from_semitones_from_c0` builds reads back with its octave clamped to zero,
so the two functions are not mutual inverses on negative inputs. -/
theorem from_to_semitones_fails_negative :
    (Note.from_semitones_from_c0 (-1) .Sharp).bind Note.to_semitones_from_c0 ≠
      some (-1) := by
  decide

/-- C2 as amended: on non-negative semitone counts (where the specification
itself declares negative counts fatal), `from_semitones_from_c0` composed
with `to_semitones_from_c0` is the identity, for either preference; hence a
note measuring a non-negative count round-trips to an enharmonically
equivalent note with the same count. -/
theorem from_to_semitones_roundtrip :
    ∀ pref : ModifierPreference,
      (∀ s : Int, 0 ≤ s →
        (Note.from_semitones_from_c0 s pref).bind Note.to_semitones_from_c0 =
          some s) ∧
      (∀ (n : Note) (v : Int), n.to_semitones_from_c0 = some v → 0 ≤ v →
        (Note.from_semitones_from_c0 v pref).bind Note.to_semitones_from_c0 =
          n.to_semitones_from_c0) := by
  intro pref
  have main : ∀ s : Int, 0 ≤ s →
      (Note.from_semitones_from_c0 s pref).bind Note.to_semitones_from_c0 =
        some s := by
    intro s hs
    by_cases h0 : s = 0
    · subst h0; cases pref <;> decide
    by_cases h12 : s = 12
    · subst h12; cases pref <;> decide
    · obtain ⟨r, hr, hsum, hge0, hle12, -, -, h11, hoo⟩ := new_spec s
      have hsem11 := h11 h0 h12
      have hoo2 := hoo hs
      have hne : r.interval ≠ .PerfectOctave := by
        intro hP8
        rw [hP8] at hsem11
        exact absurd hsem11 (by decide)
      rw [from_semitones_general s pref r hr hne, from_interval_from_c_some,
        Option.map_some', Option.some_bind]
      have hp := spelled_pitch r.interval pref hsem11
      unfold pitchOf at hp
      cases hL : semitonesFromCLoop 8 (spelledNoteOf r.interval pref).raw_note
        with
      | none => rw [hL] at hp; exact absurd hp (by simp)
      | some L =>
        rw [hL, Option.map_some'] at hp
        have hLm : L + (spelledNoteOf r.interval pref).modifier.toSemitone =
            r.interval.semitones := by
          injection hp
        unfold Note.to_semitones_from_c0
        rw [show ((spelledNoteOf r.interval pref).at_octave
            r.octave_overflow).abstract_note = spelledNoteOf r.interval pref
          from rfl]
        rw [hL, Option.map_some']
        congr 1
        rw [show ((spelledNoteOf r.interval pref).at_octave
            r.octave_overflow).octave = r.octave_overflow from rfl]
        unfold Note.climbOctaveFromZero
        rw [max_eq_left hoo2]
        linarith [hsum, hLm]
  exact ⟨main, fun n v h hv => by rw [h]; exact main v hv⟩

/-- Witness for C2 at the concrete count 48 (middle C). -/
theorem from_to_semitones_roundtrip_witness :
    (Note.from_semitones_from_c0 48 .Sharp).bind Note.to_semitones_from_c0 =
      some 48 :=
  (from_to_semitones_roundtrip .Sharp).1 48 (by decide)

/-- C8: for every lettered abstract note and every simple interval, adding
the interval preserves the pitch class: the interval-from-C of the sum is
congruent modulo 12 to the interval-from-C of the note plus the added
interval's semitones. -/
theorem add_interval_pitch_class (r : RawNote) (hr : r ∈ letterRawNotes)
    (m : NoteModifier) (i : SimpleInterval) :
    addIntervalPreservesPitchClass ⟨r, m⟩ i = true := by
  fin_cases hr <;> revert m i <;> decide

/-- Witness for C8 at C natural plus a major third. -/
theorem add_interval_pitch_class_witness :
    addIntervalPreservesPitchClass ⟨.C, .Natural⟩ .MajorThird = true :=
  add_interval_pitch_class .C (by decide) .Natural .MajorThird

end Chords
